import Mathlib

/-!
Shallow embedding of the MDX content review GitHub Action
(actions/mdx-review/index.ts, embedded in the repository README).
Strings of the TypeScript source are modelled as `List Char`;
JavaScript regular-expression global replacement is modelled by
left-to-right scanning functions with the same match semantics.
-/

set_option maxRecDepth 10000

abbrev Str := List Char

/-- Character class `[A-Za-z0-9_-]` used by the secret patterns. -/
def isKeyChar (c : Char) : Bool :=
  c.isAlphanum || c = '_' || c = '-'

/-- JavaScript `\s` character class (ASCII part plus common Unicode spaces). -/
def isJsSpace (c : Char) : Bool :=
  c = ' ' || c = '\t' || c = '\n' || c = '\r' ||
  c = '\u000b' || c = '\u000c' || c.toNat = 0xa0 || c.toNat = 0x1680 ||
  (0x2000 ≤ c.toNat && c.toNat ≤ 0x200a) || c.toNat = 0x2028 || c.toNat = 0x2029 ||
  c.toNat = 0x202f || c.toNat = 0x205f || c.toNat = 0x3000 || c.toNat = 0xfeff

def keyMarker : Str := "[REDACTED_KEY]".toList

def ghpMarker : Str := "[REDACTED_TOKEN]".toList

def bearerMarker : Str := "Bearer [REDACTED]".toList

theorem dropWhile_length_le {α : Type} (p : α → Bool) :
    ∀ l : List α, (l.dropWhile p).length ≤ l.length := by
  intro l
  induction l with
  | nil => simp [List.dropWhile]
  | cons c rest ih =>
    by_cases hc : p c
    · simp only [List.dropWhile_cons, hc, if_true, List.length_cons]
      exact Nat.le_succ_of_le ih
    · simp [List.dropWhile_cons, hc]

/-- Global replacement for `/[A-Za-z0-9_-]{32,}/g` with `[REDACTED_KEY]`:
a maximal run of key characters of length at least 32 is replaced, shorter
runs are kept, scanning resumes after the run. -/
def redactKeys : Str → Str
  | [] => []
  | c :: rest =>
    if hc : isKeyChar c then
      (if 32 ≤ ((c :: rest).takeWhile isKeyChar).length then keyMarker
       else (c :: rest).takeWhile isKeyChar)
        ++ redactKeys ((c :: rest).dropWhile isKeyChar)
    else c :: redactKeys rest
termination_by s => s.length
decreasing_by
  · simp only [List.dropWhile_cons, hc, if_true, List.length_cons]
    exact Nat.lt_succ_of_le (dropWhile_length_le _ _)
  · simp

/-- Match of `/ghp_[A-Za-z0-9]{36}/` at the head of the string. -/
def ghpAt (s : Str) : Bool :=
  s.take 4 = "ghp_".toList && 36 ≤ (s.drop 4).length && ((s.drop 4).take 36).all Char.isAlphanum

/-- Global replacement for `/ghp_[A-Za-z0-9]{36}/g` with `[REDACTED_TOKEN]`. -/
def redactGhp : Str → Str
  | [] => []
  | c :: rest =>
    if ghpAt (c :: rest) then ghpMarker ++ redactGhp ((c :: rest).drop 40)
    else c :: redactGhp rest
termination_by s => s.length
decreasing_by
  · simp only [List.length_drop, List.length_cons]
    omega
  · simp

/-- Match of `/Bearer\s+[A-Za-z0-9_-]+/i` at the head of the string;
returns the remainder after the match. -/
def bearerAt (s : Str) : Option Str :=
  if (s.take 6).map Char.toLower = "bearer".toList then
    if (s.drop 6).takeWhile isJsSpace ≠ [] ∧
        ((s.drop 6).dropWhile isJsSpace).takeWhile isKeyChar ≠ [] then
      some (((s.drop 6).dropWhile isJsSpace).dropWhile isKeyChar)
    else none
  else none

theorem bearerAt_length {s rem : Str} (h : bearerAt s = some rem) :
    rem.length < s.length := by
  unfold bearerAt at h
  split at h
  · next hb =>
    split at h
    · next hcond =>
      have hrem : rem = ((s.drop 6).dropWhile isJsSpace).dropWhile isKeyChar := by
        simpa using (Option.some_inj.mp h).symm
      have h6 : 6 ≤ s.length := by
        have := congrArg List.length hb
        simp [List.length_take] at this
        omega
      have h1 : rem.length ≤ ((s.drop 6).dropWhile isJsSpace).length := by
        rw [hrem]; exact dropWhile_length_le _ _
      have h2 : ((s.drop 6).dropWhile isJsSpace).length ≤ (s.drop 6).length :=
        dropWhile_length_le _ _
      have h3 : (s.drop 6).length = s.length - 6 := List.length_drop _ _
      omega
    · exact absurd h (by simp)
  · exact absurd h (by simp)

/-- Global replacement for `/Bearer\s+[A-Za-z0-9_-]+/gi` with `Bearer [REDACTED]`. -/
def redactBearer : Str → Str
  | [] => []
  | c :: rest =>
    match h : bearerAt (c :: rest) with
    | some rem => bearerMarker ++ redactBearer rem
    | none => c :: redactBearer rest
termination_by s => s.length
decreasing_by
  · exact bearerAt_length h
  · simp

/-- Model of `sanitizeContent` from the source: the three regex replacements in order. -/
def sanitizeContent (content : Str) : Str :=
  redactBearer (redactGhp (redactKeys content))

/-- Model of `estimateTokens` from the source: `Math.ceil(text.length / 4)`. -/
def estimateTokens (text : Str) : Nat :=
  (text.length + 3) / 4

/-- Model of JavaScript `text.split('\n')`. -/
def splitOnNl : Str → List Str
  | [] => [[]]
  | c :: rest =>
    if c = '\n' then [] :: splitOnNl rest
    else (c :: (splitOnNl rest).headI) :: (splitOnNl rest).tail

/-- Number of lines of a text, as `text.split('\n').length`. -/
def lineCount (s : Str) : Nat :=
  (splitOnNl s).length

/-!
Data model of the action (interfaces `Suggestion`, `ReviewResult`,
`FileReview`, `ChangedFile`, `ActionConfig` and the review comment shape
passed to `octokit.rest.pulls.createReview`).
-/

structure Suggestion where
  file : Str
  line_start : Nat
  line_end : Nat
  reason : Str
  suggestion : Str
deriving DecidableEq, Repr

structure ReviewResult where
  rating : Nat
  summary : Str
  suggestions : List Suggestion
deriving DecidableEq, Repr

structure FileReview where
  file : Str
  content : Str
  result : ReviewResult
deriving DecidableEq, Repr

structure ChangedFile where
  filename : Str
  status : Str
  additions : Nat
  deletions : Nat
  changes : Nat
  patch : Option Str
deriving DecidableEq, Repr

structure ActionConfig where
  apiKey : Str
  provider : Str
  model : Str
  temperature : ℚ
  maxTokens : Nat
  approvalThreshold : Nat
  maxFiles : Nat
  promptTemplate : Str
  githubToken : Str
deriving DecidableEq, Repr

structure ReviewComment where
  path : Str
  line : Nat
  body : Str
deriving DecidableEq, Repr

/-!
Prompt construction (`buildPrompt`, `getSystemPrompt`). JavaScript
`String.prototype.replace` with a plain string pattern replaces only the
first occurrence; `replaceFirst` models it.
-/

/-- Model of JavaScript `s.replace(pat, rep)` with a string pattern:
only the first occurrence of `pat` is replaced. -/
def replaceFirst (pat rep : Str) : Str → Str
  | [] => if pat.isPrefixOf [] then rep ++ ([] : Str).drop pat.length else []
  | c :: rest =>
    if pat.isPrefixOf (c :: rest) then rep ++ (c :: rest).drop pat.length
    else c :: replaceFirst pat rep rest

def filePathPlaceholder : Str := "{file_path}".toList

def fileContentPlaceholder : Str := "{file_content}".toList

/-- Default prompt of `buildPrompt` when no custom template is supplied. -/
def defaultPrompt (filePath content : Str) : Str :=
  "Review this MDX file:\n\n**File:** ".toList ++ filePath ++
  "\n**Content:**\n```mdx\n".toList ++ content ++
  "\n```\n\nProvide a rating (1-5) and specific suggestions for improvement.\nFocus on actionable changes that enhance clarity, accuracy, and readability.\nFor each suggestion, provide the exact replacement text that should replace the specified lines.".toList

/-- Model of `buildPrompt` from the source: a truthy (nonempty) custom template has its
placeholders substituted by two chained `replace` calls, otherwise the default
template is used. -/
def buildPrompt (filePath content customTemplate : Str) : Str :=
  if customTemplate = [] then defaultPrompt filePath content
  else replaceFirst fileContentPlaceholder content
    (replaceFirst filePathPlaceholder filePath customTemplate)

/-- Model of `getSystemPrompt` from the source (fixed rubric text). -/
def getSystemPrompt : Str :=
  "You are an expert documentation reviewer specializing in MDX content.\nEvaluate content based on:\n- Clarity: Is the writing clear and easy to understand?\n- Accuracy: Are technical details correct?\n- Structure: Is the content well-organized with proper headings and flow?\n- Style: Does it follow best practices for technical documentation?\n- MDX Syntax: Are MDX components used correctly?\n\nProvide specific, actionable suggestions with exact replacement text.\nEach suggestion should target specific line ranges and include the complete replacement content.".toList

/-!
LLM provider selection and the per-file review call.
`generateObject` is abstracted as an oracle from the user prompt and the
attempt index to a schema-validated result or an error; the source makes
a single call, so only attempt `0` is ever consulted.
-/

inductive Provider where
  | openai
  | anthropic
deriving DecidableEq, Repr

inductive LLMError where
  | errMessage (msg : Str)
  | nonError
deriving DecidableEq, Repr

/-- The text interpolated into the fallback summary:
`error instanceof Error ? error.message : 'Unknown error'`. -/
def llmErrorText : LLMError → Str
  | .errMessage msg => msg
  | .nonError => "Unknown error".toList

inductive RunError where
  | unsupportedProvider (name : Str)
deriving DecidableEq, Repr

/-- Model of `getLLMProvider` from the source: switch on the lowercased provider name,
unknown names throw. -/
def getLLMProvider (config : ActionConfig) : Except RunError Provider :=
  if config.provider.map Char.toLower = "openai".toList then .ok .openai
  else if config.provider.map Char.toLower = "anthropic".toList then .ok .anthropic
  else .error (.unsupportedProvider config.provider)

/-- Whether the configured provider name is recognized. -/
def providerOk (config : ActionConfig) : Bool :=
  match getLLMProvider config with
  | .ok _ => true
  | .error _ => false

/-- The fallback review returned by `reviewFileWithLLM` when the
`generateObject` call throws. -/
def fallbackReview (e : LLMError) : ReviewResult :=
  { rating := 3
    summary := "Automated review failed: ".toList ++ llmErrorText e
    suggestions := [] }

/-- Oracle type standing for `generateObject` restricted to the review schema:
user prompt and attempt index to validated object or thrown error. -/
abbrev GenOracle := Str → Nat → Except LLMError ReviewResult

/-- Model of `reviewFileWithLLM` from the source. Provider selection happens before the
`try` block, so its error propagates; the single `generateObject` call (attempt
`0`) is inside the `try`, and any error it throws becomes the fallback review. -/
def reviewFileWithLLM (config : ActionConfig) (filePath content : Str)
    (gen : GenOracle) : Except RunError ReviewResult :=
  match getLLMProvider config with
  | .error e => .error e
  | .ok _ =>
    match gen (buildPrompt filePath content config.promptTemplate) 0 with
    | .ok object => .ok object
    | .error e => .ok (fallbackReview e)

/-!
Review aggregation and posting (`postReview`, `buildReviewBody`,
`buildSuggestionComment`) and the final outputs of `run`.
-/

/-- Model of `Math.round` on a (finite, nonnegative-in-all-uses) number:
round half toward positive infinity. -/
def jsRound (q : ℚ) : ℤ :=
  (q + 1 / 2).floor

/-- Model of `reviews.reduce((sum, r) => sum + r.result.rating, 0)`. -/
def sumRatings (reviews : List FileReview) : Nat :=
  reviews.foldl (fun acc r => acc + r.result.rating) 0

/-- The overall rating computed both in `postReview` and for the `rating`
output: `Math.round(reviews.reduce(..) / reviews.length)`. -/
def overallRating (reviews : List FileReview) : ℤ :=
  jsRound ((sumRatings reviews : ℚ) / (reviews.length : ℚ))

/-- Model of `reviews.reduce((sum, r) => sum + r.result.suggestions.length, 0)`,
the `suggestions_count` output. -/
def totalSuggestions (reviews : List FileReview) : Nat :=
  reviews.foldl (fun acc r => acc + r.result.suggestions.length) 0

/-- Model of `reviews.flatMap(r => r.result.suggestions)` from `postReview`. -/
def allSuggestionsOf (reviews : List FileReview) : List Suggestion :=
  reviews.flatMap (fun r => r.result.suggestions)

/-- Model of `buildSuggestionComment` from the source. -/
def buildSuggestionComment (s : Suggestion) : Str :=
  "**".toList ++ s.reason ++ "**\n\n```suggestion\n".toList ++
    s.suggestion ++ "\n```".toList

/-- The review comment built for one suggestion in `postReview`:
`{ path: suggestion.file, line: suggestion.line_end, body: ... }`. -/
def toReviewComment (s : Suggestion) : ReviewComment :=
  { path := s.file, line := s.line_end, body := buildSuggestionComment s }

/-- The comments array submitted by `postReview`. -/
def commentsOf (reviews : List FileReview) : List ReviewComment :=
  (allSuggestionsOf reviews).map toReviewComment

def natToStr (n : Nat) : Str := (toString n).toList

def intToStr (i : ℤ) : Str := (toString i).toList

def starChars : Str := [Char.ofNat 0xe2, Char.ofNat 0xad]

def robotChars : Str := [Char.ofNat 0xf0, Char.ofNat 0x178, Char.ofNat 0xa4, Char.ofNat 0x2013]

def bulbChars : Str := [Char.ofNat 0xf0, Char.ofNat 0x178, Char.ofNat 0x2019, Char.ofNat 0xa1]

def sparkleChars : Str := [Char.ofNat 0xe2, Char.ofNat 0x153, Char.ofNat 0xa8]

/-- One line of the per-file summary in the review body. -/
def fileSummaryLine (r : FileReview) : Str :=
  "- **".toList ++ r.file ++ "** (".toList ++ natToStr r.result.rating ++
    "/5): ".toList ++ r.result.summary

/-- Model of `buildReviewBody` from the source. -/
def buildReviewBody (rating : ℤ) (reviews : List FileReview)
    (suggestionsCount : Nat) : Str :=
  "## ".toList ++ robotChars ++ " AI Content Review - Rating: ".toList ++
  intToStr rating ++ "/5 ".toList ++
  (List.replicate rating.toNat starChars).flatten ++
  "\n\n**Files Reviewed:** ".toList ++ natToStr reviews.length ++
  "\n**Total Suggestions:** ".toList ++ natToStr suggestionsCount ++
  "\n\n### Summary by File\n\n".toList ++
  List.intercalate "\n".toList (reviews.map fileSummaryLine) ++
  "\n\n---\n\n".toList ++
  (if 0 < suggestionsCount then
    "### ".toList ++ bulbChars ++
    " Suggestions\n\nThe AI has provided inline code suggestions below. Review each one and click \"Commit suggestion\" if you agree.\n\n**Note:** These are AI-generated suggestions. Please review carefully before applying.".toList
  else
    sparkleChars ++ " No specific suggestions - content looks good!".toList) ++
  "\n".toList

/-!
Orchestration (`run`). The per-file loop, the skip label, the MDX filter,
the `maxFiles` cap and the terminal outcome are modelled as a pure function
of the configuration, the PR labels, the changed-file list, a content oracle
(`getFileContent`) and the `generateObject` oracle. The model additionally
records which files had their content retrieved and which files were skipped
with a `core.warning`, so that the order of effects is observable.
-/

/-- Model of `filterMDXFiles` from the source. -/
def filterMDXFiles (files : List ChangedFile) : List ChangedFile :=
  files.filter (fun f => ".mdx".toList.isSuffixOf f.filename)

/-- Model of `shouldSkipPR` from the source. -/
def shouldSkipPR (labels : List Str) : Bool :=
  labels.contains "ai-skip-review".toList

/-- Oracle type standing for `getFileContent`: path to file text, or a
thrown retrieval error. -/
abbrev ContentOracle := Str → Except Unit Str

/-- Result of the per-file `for` loop of `run`: the collected `reviews`
array, the paths whose content was successfully retrieved, the paths skipped
with a `core.warning`, and the accumulated `totalTokens`. -/
structure LoopResult where
  reviews : List FileReview
  fetched : List Str
  skipped : List Str
  tokens : Nat
deriving DecidableEq, Repr

/-- The per-file `for` loop of `run`: fetch content, sanitize, estimate
tokens, review with the LLM; any error thrown for a file (content retrieval
or provider selection) skips that file with a warning. -/
def processFiles (config : ActionConfig) (getContent : ContentOracle)
    (gen : GenOracle) : List ChangedFile → LoopResult
  | [] => ⟨[], [], [], 0⟩
  | f :: rest =>
    let r := processFiles config getContent gen rest
    match getContent f.filename with
    | .error _ => ⟨r.reviews, r.fetched, f.filename :: r.skipped, r.tokens⟩
    | .ok content =>
      let sanitized := sanitizeContent content
      let tokens := estimateTokens sanitized
      match reviewFileWithLLM config f.filename sanitized gen with
      | .ok result =>
        ⟨⟨f.filename, sanitized, result⟩ :: r.reviews,
          f.filename :: r.fetched, r.skipped, tokens + r.tokens⟩
      | .error _ =>
        ⟨r.reviews, f.filename :: r.fetched, f.filename :: r.skipped,
          tokens + r.tokens⟩

/-- The `run` outputs set on the success path. -/
structure RunOutputs where
  rating : ℤ
  filesProcessed : Nat
  suggestionsCount : Nat
  tokensUsed : Nat
deriving DecidableEq, Repr

/-- Terminal outcome of a run. `submitted` carries the `reviews` array given
to `postReview` together with the body, comments and event submitted to
`createReview` and the outputs set afterwards. -/
inductive Outcome where
  | skippedLabel
  | noMdxFiles
  | failedNoReviews
  | submitted (reviews : List FileReview) (body : Str)
      (comments : List ReviewComment) (event : Str) (outputs : RunOutputs)
deriving DecidableEq, Repr

structure RunResult where
  fetched : List Str
  capWarned : Bool
  skipped : List Str
  outcome : Outcome
deriving DecidableEq, Repr

/-- Model of `postReview` from the source, as the submitted payload: the overall
rating, the flattened suggestions mapped to comments, the body, and the
review event (`'COMMENT'` on both branches of the ternary). -/
def postReviewPayload (reviews : List FileReview) (approvalThreshold : Nat) :
    Str × List ReviewComment × Str :=
  let rating := overallRating reviews
  let event := if approvalThreshold ≤ rating then "COMMENT".toList else "COMMENT".toList
  (buildReviewBody rating reviews (allSuggestionsOf reviews).length,
    commentsOf reviews, event)

/-- The orchestration of `run` from the skip-label check onward. -/
def runModel (config : ActionConfig) (labels : List Str)
    (files : List ChangedFile) (getContent : ContentOracle)
    (gen : GenOracle) : RunResult :=
  if shouldSkipPR labels then ⟨[], false, [], .skippedLabel⟩
  else
    let mdxFiles := filterMDXFiles files
    if mdxFiles.isEmpty then ⟨[], false, [], .noMdxFiles⟩
    else
      let filesToReview := mdxFiles.take config.maxFiles
      let capWarned := config.maxFiles < mdxFiles.length
      let lr := processFiles config getContent gen filesToReview
      if lr.reviews.isEmpty then
        ⟨lr.fetched, capWarned, lr.skipped, .failedNoReviews⟩
      else
        let payload := postReviewPayload lr.reviews config.approvalThreshold
        ⟨lr.fetched, capWarned, lr.skipped,
          .submitted lr.reviews payload.1 payload.2.1 payload.2.2
            { rating := overallRating lr.reviews
              filesProcessed := lr.reviews.length
              suggestionsCount := totalSuggestions lr.reviews
              tokensUsed := lr.tokens }⟩

/-- Review bodies posted by a run, if any (projection of the outcome). -/
def postedBody (r : RunResult) : Option Str :=
  match r.outcome with
  | .submitted _ body _ _ _ => some body
  | _ => none

/-- Contents of the file reviews submitted by a run (projection). -/
def submittedContents (r : RunResult) : List Str :=
  match r.outcome with
  | .submitted reviews _ _ _ _ => reviews.map (fun fr => fr.content)
  | _ => []

/-- The review result a file resolves to when the provider is recognized:
the validated object on success, the fallback review when the single
`generateObject` call throws. -/
def genResult (config : ActionConfig) (gen : GenOracle)
    (filePath content : Str) : ReviewResult :=
  match gen (buildPrompt filePath content config.promptTemplate) 0 with
  | .ok r => r
  | .error e => fallbackReview e

/-- The file-review entry the loop appends for a file whose content was
retrieved, when the provider is recognized. -/
def loopEntry (config : ActionConfig) (gen : GenOracle)
    (cf : ChangedFile → Str) (f : ChangedFile) : FileReview :=
  ⟨f.filename, sanitizeContent (cf f),
    genResult config gen f.filename (sanitizeContent (cf f))⟩

instance {e a : Type} [DecidableEq e] [DecidableEq a] :
    DecidableEq (Except e a) := fun x y =>
  match x, y with
  | .error u, .error v =>
    if h : u = v then isTrue (by rw [h])
    else isFalse (by intro hx; cases hx; exact h rfl)
  | .error _, .ok _ => isFalse (by intro hx; cases hx)
  | .ok _, .error _ => isFalse (by intro hx; cases hx)
  | .ok u, .ok v =>
    if h : u = v then isTrue (by rw [h])
    else isFalse (by intro hx; cases hx; exact h rfl)

/-!
Concrete fixtures used by closed witness and counterexample statements.
-/

def cfgOpenai : ActionConfig :=
  { apiKey := "k".toList
    provider := "openai".toList
    model := "gpt-4o-mini".toList
    temperature := 3 / 10
    maxTokens := 2000
    approvalThreshold := 4
    maxFiles := 20
    promptTemplate := []
    githubToken := "t".toList }

def cfgMistral : ActionConfig :=
  { cfgOpenai with provider := "mistral".toList }

def cfgCapOne : ActionConfig :=
  { cfgOpenai with maxFiles := 1 }

def fileA : ChangedFile :=
  ⟨"docs/a.mdx".toList, "modified".toList, 1, 0, 1, none⟩

def fileB : ChangedFile :=
  ⟨"docs/b.mdx".toList, "added".toList, 2, 0, 2, none⟩

def contentA : Str :=
  "hello world, this is a test content for the bound check!".toList

def okContent : ContentOracle := fun _ => .ok contentA

def genOk : GenOracle := fun _ _ => .ok ⟨4, "ok".toList, []⟩

def genTimeout : GenOracle := fun _ n =>
  if n = 0 then .error (.errMessage "timeout".toList)
  else .ok ⟨5, "good".toList, []⟩

/-!
Line-structure lemmas: `splitOnNl` distributes over a newline separator,
and `lineCount` is one more than the number of newline characters.
-/

theorem splitOnNl_ne_nil (s : Str) : splitOnNl s ≠ [] := by
  cases s with
  | nil => simp [splitOnNl]
  | cons c rest =>
    by_cases hc : c = '\n' <;> simp [splitOnNl, hc]

theorem splitOnNl_append_nl (a b : Str) :
    splitOnNl (a ++ '\n' :: b) = splitOnNl a ++ splitOnNl b := by
  induction a with
  | nil => simp [splitOnNl]
  | cons c rest ih =>
    by_cases hc : c = '\n'
    · simp [splitOnNl, hc, ih]
    · simp only [List.cons_append, splitOnNl, hc, if_false, List.append_eq, ih]
      have hne := splitOnNl_ne_nil rest
      cases hsp : splitOnNl rest with
      | nil => exact absurd hsp hne
      | cons l ls => simp [hsp]

theorem splitOnNl_of_no_nl {a : Str} (h : ∀ c ∈ a, c ≠ '\n') :
    splitOnNl a = [a] := by
  induction a with
  | nil => simp [splitOnNl]
  | cons c rest ih =>
    have hc : c ≠ '\n' := h c (by simp)
    have hrest : splitOnNl rest = [rest] := ih (fun x hx => h x (by simp [hx]))
    simp [splitOnNl, hc, hrest, List.headI]

theorem lineCount_eq_count_nl (s : Str) :
    lineCount s = s.count '\n' + 1 := by
  unfold lineCount
  induction s with
  | nil => simp [splitOnNl]
  | cons c rest ih =>
    by_cases hc : c = '\n'
    · subst hc
      simp [splitOnNl, List.count_cons, ih]
    · simp only [splitOnNl, hc, if_false]
      have hcount : List.count '\n' (c :: rest) = List.count '\n' rest := by
        simp [List.count_cons, Ne.symm hc]
      have hne := splitOnNl_ne_nil rest
      cases hsp : splitOnNl rest with
      | nil => exact absurd hsp hne
      | cons l ls =>
        rw [hsp] at ih
        simp only [List.length_cons, hsp, List.tail, hcount] at ih ⊢
        omega

/-!
Newline bookkeeping for the three sanitizer passes: the first two patterns
cannot match a newline, so those passes preserve the newline count; a Bearer
match can span a newline (its `\s+` part), so that pass can only decrease it.
-/

theorem count_nl_takeWhile_key (l : Str) :
    (l.takeWhile isKeyChar).count '\n' = 0 := by
  induction l with
  | nil => simp
  | cons c rest ih =>
    by_cases hc : isKeyChar c
    · have hcn : c ≠ '\n' := by
        intro he; subst he; exact absurd hc (by decide)
      simp [List.takeWhile_cons, hc, List.count_cons, ih, Ne.symm hcn]
    · simp [List.takeWhile_cons, hc]

theorem count_nl_redactKeys (s : Str) :
    (redactKeys s).count '\n' = s.count '\n' := by
  induction s using redactKeys.induct with
  | case1 => simp [redactKeys]
  | case2 c rest hc ih =>
    rw [redactKeys]
    simp only [hc, dif_pos]
    rw [List.count_append]
    have hsplit :
        ((c :: rest).takeWhile isKeyChar).count '\n' +
          ((c :: rest).dropWhile isKeyChar).count '\n' = (c :: rest).count '\n' := by
      conv_rhs => rw [← List.takeWhile_append_dropWhile (p := isKeyChar) (l := c :: rest)]
      rw [List.count_append]
    by_cases h32 : 32 ≤ ((c :: rest).takeWhile isKeyChar).length
    · simp only [h32, if_true]
      have : keyMarker.count '\n' = 0 := by decide
      rw [this, ih]
      rw [count_nl_takeWhile_key] at hsplit
      omega
    · simp only [h32, if_false]
      rw [ih]
      omega
  | case3 c rest hc ih =>
    rw [redactKeys]
    simp only [hc]
    rw [if_neg (by simp [hc])]
    by_cases hcn : c = '\n' <;> simp [List.count_cons, ih, hcn]

theorem count_nl_take40_of_ghpAt {s : Str} (h : ghpAt s = true) :
    (s.take 40).count '\n' = 0 := by
  unfold ghpAt at h
  simp only [Bool.and_eq_true, decide_eq_true_eq] at h
  obtain ⟨⟨h4, _⟩, h36⟩ := h
  have hsplit : s.take 40 = s.take 4 ++ (s.drop 4).take 36 := by
    have : (40 : Nat) = 4 + 36 := by omega
    rw [this, List.take_add]
  rw [hsplit, List.count_append, h4]
  have h0 : List.count '\n' "ghp_".toList = 0 := by decide
  rw [h0]
  have : List.count '\n' ((s.drop 4).take 36) = 0 := by
    rw [List.count_eq_zero]
    intro hmem
    have := List.all_eq_true.mp h36 _ hmem
    simp at this
  omega

theorem count_nl_redactGhp (s : Str) :
    (redactGhp s).count '\n' = s.count '\n' := by
  induction s using redactGhp.induct with
  | case1 => simp [redactGhp]
  | case2 c rest hg ih =>
    rw [redactGhp, if_pos hg, List.count_append, ih]
    have hm : ghpMarker.count '\n' = 0 := by decide
    rw [hm]
    conv_rhs => rw [← List.take_append_drop 40 (c :: rest), List.count_append]
    rw [count_nl_take40_of_ghpAt hg]
  | case3 c rest hg ih =>
    rw [redactGhp, if_neg hg]
    simp [List.count_cons, ih]

theorem bearerAt_suffix {s rem : Str} (h : bearerAt s = some rem) :
    rem.Sublist s := by
  unfold bearerAt at h
  split at h
  · split at h
    · have hrem : rem = ((s.drop 6).dropWhile isJsSpace).dropWhile isKeyChar := by
        simpa using (Option.some_inj.mp h).symm
      rw [hrem]
      have h1 : (((s.drop 6).dropWhile isJsSpace).dropWhile isKeyChar).Sublist
          ((s.drop 6).dropWhile isJsSpace) := (List.dropWhile_sublist _)
      have h2 : ((s.drop 6).dropWhile isJsSpace).Sublist (s.drop 6) :=
        (List.dropWhile_sublist _)
      have h3 : (s.drop 6).Sublist s := List.drop_sublist _ _
      exact h1.trans (h2.trans h3)
    · exact absurd h (by simp)
  · exact absurd h (by simp)

theorem count_nl_redactBearer_le (s : Str) :
    (redactBearer s).count '\n' ≤ s.count '\n' := by
  induction s using redactBearer.induct with
  | case1 => simp [redactBearer]
  | case2 c rest rem hb ih =>
    rw [redactBearer]
    split
    · next rem2 hsome =>
      have hr : rem2 = rem := by
        rw [hb] at hsome
        exact (Option.some_inj.mp hsome).symm
      subst hr
      rw [List.count_append]
      have hm : bearerMarker.count '\n' = 0 := by decide
      rw [hm]
      have hsub : List.count '\n' rem2 ≤ List.count '\n' (c :: rest) :=
        (bearerAt_suffix hb).count_le '\n'
      omega
    · next hnone =>
      rw [hnone] at hb
      cases hb
  | case3 c rest hb ih =>
    rw [redactBearer]
    split
    · next rem2 hsome =>
      rw [hb] at hsome
      cases hsome
    · next =>
      simp only [List.count_cons]
      split <;> omega

theorem bearerAt_none_of_head {c : Char} {rest : Str}
    (h : Char.toLower c ≠ 'b') : bearerAt (c :: rest) = none := by
  unfold bearerAt
  rw [if_neg]
  intro he
  have : (c :: rest).take 6 = c :: rest.take 5 := by simp [List.take_cons]
  rw [this] at he
  simp only [List.map_cons] at he
  have hb : "bearer".toList = 'b' :: "earer".toList := by decide
  rw [hb] at he
  exact h (List.head_eq_of_cons_eq he)

theorem redactBearer_id_of_no_b {s : Str}
    (h : ∀ x ∈ s, Char.toLower x ≠ 'b') : redactBearer s = s := by
  induction s using redactBearer.induct with
  | case1 => rw [redactBearer]
  | case2 c rest rem hb ih =>
    have hnone := @bearerAt_none_of_head c rest (h c (by simp))
    rw [hnone] at hb
    cases hb
  | case3 c rest hb ih =>
    rw [redactBearer]
    split
    · next rem2 hsome =>
      rw [hb] at hsome
      cases hsome
    · next =>
      have hrest := ih (fun x hx => h x (by simp [hx]))
      rw [hrest]

theorem mem_redactKeys {x : Char} {s : Str} (h : x ∈ redactKeys s) :
    x ∈ s ∨ x ∈ keyMarker := by
  induction s using redactKeys.induct with
  | case1 => simp [redactKeys] at h
  | case2 c rest hc ih =>
    rw [redactKeys] at h
    simp only [hc, dif_pos, List.mem_append] at h
    rcases h with h | h
    · by_cases h32 : 32 ≤ ((c :: rest).takeWhile isKeyChar).length
      · rw [if_pos h32] at h
        exact Or.inr h
      · rw [if_neg h32] at h
        exact Or.inl ((List.takeWhile_sublist _).mem h)
    · rcases ih h with h | h
      · exact Or.inl ((List.dropWhile_sublist _).mem h)
      · exact Or.inr h
  | case3 c rest hc ih =>
    rw [redactKeys] at h
    simp only [hc] at h
    rw [dif_neg (by simp [hc])] at h
    rcases List.mem_cons.mp h with h | h
    · exact Or.inl (by simp [h])
    · rcases ih h with h | h
      · exact Or.inl (by simp [h])
      · exact Or.inr h

theorem mem_redactGhp {x : Char} {s : Str} (h : x ∈ redactGhp s) :
    x ∈ s ∨ x ∈ ghpMarker := by
  induction s using redactGhp.induct with
  | case1 => simp [redactGhp] at h
  | case2 c rest hg ih =>
    rw [redactGhp, if_pos hg] at h
    rcases List.mem_append.mp h with h | h
    · exact Or.inr h
    · rcases ih h with h | h
      · exact Or.inl ((List.drop_sublist _ _).mem h)
      · exact Or.inr h
  | case3 c rest hg ih =>
    rw [redactGhp, if_neg hg] at h
    rcases List.mem_cons.mp h with h | h
    · exact Or.inl (by simp [h])
    · rcases ih h with h | h
      · exact Or.inl (by simp [h])
      · exact Or.inr h

/-!
Claim C4. The first two sanitizer patterns cannot match a newline, but the
`\s+` part of the Bearer pattern can, so a Bearer match spanning a newline
shortens the line count. Hence the claimed line-count invariant fails;
what holds is that the line count never grows, and is preserved whenever no
character of the input lowercases to the letter b (so no Bearer match can
start).
-/

unseal redactKeys redactGhp redactBearer in
/-- C4 counterexample: on the input consisting of the line Bearer followed
by the line abcd, the Bearer pattern matches across the newline, so
`sanitizeContent` maps a two-line input to a one-line output, contradicting
the claimed equality of line counts. -/
theorem c4_sanitize_shrinks_line_count_counterexample :
    sanitizeContent "Bearer\nabcd".toList = "Bearer [REDACTED]".toList ∧
    lineCount "Bearer\nabcd".toList = 2 ∧
    lineCount (sanitizeContent "Bearer\nabcd".toList) = 1 := by
  decide

/-- C4 amended: `sanitizeContent` never increases the line count, and
preserves it on every input in which no character lowercases to b (such
inputs admit no Bearer match, and the other two patterns cannot include a
newline in a match). -/
theorem c4_sanitize_line_count_bounds :
    (∀ s : Str, lineCount (sanitizeContent s) ≤ lineCount s) ∧
    (∀ s : Str, (∀ x ∈ s, Char.toLower x ≠ 'b') →
      lineCount (sanitizeContent s) = lineCount s) := by
  constructor
  · intro s
    rw [lineCount_eq_count_nl, lineCount_eq_count_nl]
    have h1 := count_nl_redactKeys s
    have h2 := count_nl_redactGhp (redactKeys s)
    have h3 := count_nl_redactBearer_le (redactGhp (redactKeys s))
    unfold sanitizeContent
    omega
  · intro s hs
    have hkey : ∀ x ∈ keyMarker, Char.toLower x ≠ 'b' := by decide
    have hghp : ∀ x ∈ ghpMarker, Char.toLower x ≠ 'b' := by decide
    have h1 : ∀ x ∈ redactKeys s, Char.toLower x ≠ 'b' := by
      intro x hx
      rcases mem_redactKeys hx with h | h
      · exact hs x h
      · exact hkey x h
    have h2 : ∀ x ∈ redactGhp (redactKeys s), Char.toLower x ≠ 'b' := by
      intro x hx
      rcases mem_redactGhp hx with h | h
      · exact h1 x h
      · exact hghp x h
    unfold sanitizeContent
    rw [redactBearer_id_of_no_b h2, lineCount_eq_count_nl, lineCount_eq_count_nl,
      count_nl_redactGhp, count_nl_redactKeys]

/-- C4 witness: the amended preservation statement applied to a concrete
two-line input without the letter b. -/
theorem c4_sanitize_line_count_bounds_witness :
    lineCount (sanitizeContent "hello\nworld".toList) =
      lineCount "hello\nworld".toList :=
  c4_sanitize_line_count_bounds.2 _ (by decide)

/-!
Per-file loop lemmas: with a recognized provider, every file whose content
is retrieved contributes exactly one review entry (a fallback entry when its
LLM call fails), so individual LLM failures never remove a file from the
submitted set; with an unrecognized provider, every file is fetched and then
skipped.
-/

theorem reviewFileWithLLM_of_providerOk {config : ActionConfig}
    (hprov : providerOk config = true) (filePath content : Str)
    (gen : GenOracle) :
    reviewFileWithLLM config filePath content gen =
      .ok (genResult config gen filePath content) := by
  unfold providerOk at hprov
  unfold reviewFileWithLLM genResult
  cases hp : getLLMProvider config with
  | error e => rw [hp] at hprov; cases hprov
  | ok p => cases gen (buildPrompt filePath content config.promptTemplate) 0 <;> rfl

theorem reviewFileWithLLM_of_providerBad {config : ActionConfig}
    (hprov : providerOk config = false) (filePath content : Str)
    (gen : GenOracle) :
    ∃ e, reviewFileWithLLM config filePath content gen = .error e := by
  unfold providerOk at hprov
  unfold reviewFileWithLLM
  cases hp : getLLMProvider config with
  | error e => exact ⟨e, rfl⟩
  | ok p => rw [hp] at hprov; cases hprov

theorem processFiles_reviews_of_ok {config : ActionConfig}
    {getContent : ContentOracle} {gen : GenOracle} {cf : ChangedFile → Str}
    (hprov : providerOk config = true) :
    ∀ fs : List ChangedFile, (∀ f ∈ fs, getContent f.filename = .ok (cf f)) →
      (processFiles config getContent gen fs).reviews =
        fs.map (loopEntry config gen cf) := by
  intro fs
  induction fs with
  | nil => intro _; rfl
  | cons f rest ih =>
    intro hc
    have hf : getContent f.filename = .ok (cf f) := hc f (by simp)
    have hrest := ih (fun g hg => hc g (by simp [hg]))
    simp only [processFiles, hf, reviewFileWithLLM_of_providerOk hprov,
      List.map_cons, hrest, loopEntry]

theorem processFiles_of_bad_provider {config : ActionConfig}
    {getContent : ContentOracle} {gen : GenOracle} {cf : ChangedFile → Str}
    (hprov : providerOk config = false) :
    ∀ fs : List ChangedFile, (∀ f ∈ fs, getContent f.filename = .ok (cf f)) →
      processFiles config getContent gen fs =
        ⟨[], fs.map (fun f => f.filename), fs.map (fun f => f.filename),
          (fs.map (fun f => estimateTokens (sanitizeContent (cf f)))).sum⟩ := by
  intro fs
  induction fs with
  | nil => intro _; rfl
  | cons f rest ih =>
    intro hc
    have hf : getContent f.filename = .ok (cf f) := hc f (by simp)
    have hrest := ih (fun g hg => hc g (by simp [hg]))
    obtain ⟨e, he⟩ :=
      reviewFileWithLLM_of_providerBad hprov f.filename
        (sanitizeContent (cf f)) gen
    simp only [processFiles, hf, he, hrest, List.map_cons, List.sum_cons]

/-!
Claim C1. With a recognized provider, a file whose `generateObject` call
throws resolves to the fallback review (rating 3, failure summary with the
error reason, no suggestions); the run still submits a review whose file
set is exactly every capped MDX file whose content was retrieved, so a
single LLM failure never aborts the run nor drops any other file.
-/

/-- C1: if the LLM call for one file fails terminally, that file resolves to
the fallback FileReview with rating 3, a summary stating the automated review
failed with the error reason, and no suggestions, while the run still submits
a review covering every selected file. -/
theorem c1_llm_failure_fallback_run_submits
    (config : ActionConfig) (labels : List Str) (files : List ChangedFile)
    (getContent : ContentOracle) (gen : GenOracle) (cf : ChangedFile → Str)
    (f0 : ChangedFile) (e : LLMError)
    (hprov : providerOk config = true)
    (hskip : shouldSkipPR labels = false)
    (hc : ∀ f ∈ (filterMDXFiles files).take config.maxFiles,
      getContent f.filename = .ok (cf f))
    (hf0 : f0 ∈ (filterMDXFiles files).take config.maxFiles)
    (hgen : gen (buildPrompt f0.filename (sanitizeContent (cf f0))
      config.promptTemplate) 0 = .error e) :
    ∃ body comments event outputs,
      (runModel config labels files getContent gen).outcome =
        .submitted (((filterMDXFiles files).take config.maxFiles).map
          (loopEntry config gen cf)) body comments event outputs ∧
      (⟨f0.filename, sanitizeContent (cf f0),
        { rating := 3
          summary := "Automated review failed: ".toList ++ llmErrorText e
          suggestions := [] }⟩ : FileReview) ∈
        ((filterMDXFiles files).take config.maxFiles).map
          (loopEntry config gen cf) := by
  have hmem : f0 ∈ filterMDXFiles files := List.take_subset _ _ hf0
  have hfilter_ne : filterMDXFiles files ≠ [] := List.ne_nil_of_mem hmem
  have htake_ne : (filterMDXFiles files).take config.maxFiles ≠ [] :=
    List.ne_nil_of_mem hf0
  have hrev := @processFiles_reviews_of_ok config getContent gen cf hprov
    ((filterMDXFiles files).take config.maxFiles) hc
  have hentry : loopEntry config gen cf f0 =
      ⟨f0.filename, sanitizeContent (cf f0),
        { rating := 3
          summary := "Automated review failed: ".toList ++ llmErrorText e
          suggestions := [] }⟩ := by
    simp only [loopEntry, genResult, hgen]
    rfl
  have houtcome : (runModel config labels files getContent gen).outcome =
      .submitted (((filterMDXFiles files).take config.maxFiles).map
        (loopEntry config gen cf))
        (postReviewPayload (((filterMDXFiles files).take config.maxFiles).map
          (loopEntry config gen cf)) config.approvalThreshold).1
        (postReviewPayload (((filterMDXFiles files).take config.maxFiles).map
          (loopEntry config gen cf)) config.approvalThreshold).2.1
        (postReviewPayload (((filterMDXFiles files).take config.maxFiles).map
          (loopEntry config gen cf)) config.approvalThreshold).2.2
        { rating := overallRating (((filterMDXFiles files).take
            config.maxFiles).map (loopEntry config gen cf))
          filesProcessed := (((filterMDXFiles files).take config.maxFiles).map
            (loopEntry config gen cf)).length
          suggestionsCount := totalSuggestions (((filterMDXFiles files).take
            config.maxFiles).map (loopEntry config gen cf))
          tokensUsed := (processFiles config getContent gen
            ((filterMDXFiles files).take config.maxFiles)).tokens } := by
    unfold runModel
    rw [hskip]
    simp only [Bool.false_eq_true, if_false]
    have hemp : (filterMDXFiles files).isEmpty = false := by
      simp [List.isEmpty_iff, hfilter_ne]
    rw [hemp]
    simp only [Bool.false_eq_true, if_false]
    have hmap_ne :
        ((processFiles config getContent gen
          ((filterMDXFiles files).take config.maxFiles)).reviews).isEmpty
          = false := by
      rw [hrev]
      have hm : (((filterMDXFiles files).take config.maxFiles).map
          (loopEntry config gen cf)) ≠ [] := by
        intro hnil
        exact htake_ne (List.map_eq_nil_iff.mp hnil)
      simpa [List.isEmpty_iff] using hm
    rw [hmap_ne]
    simp only [Bool.false_eq_true, if_false]
    simp only [hrev]
  refine ⟨_, _, _, _, houtcome, ?_⟩
  rw [← hentry]
  exact List.mem_map_of_mem _ hf0

/-- C1 witness: a run over one MDX file whose LLM call times out still
submits a review, and that file's entry is the rating-3 fallback. -/
theorem c1_llm_failure_fallback_run_submits_witness :
    ∃ body comments event outputs,
      (runModel cfgOpenai [] [fileA] okContent genTimeout).outcome =
        .submitted (((filterMDXFiles [fileA]).take cfgOpenai.maxFiles).map
          (loopEntry cfgOpenai genTimeout (fun _ => contentA)))
          body comments event outputs ∧
      (⟨fileA.filename, sanitizeContent contentA,
        { rating := 3
          summary := "Automated review failed: ".toList ++
            llmErrorText (.errMessage "timeout".toList)
          suggestions := [] }⟩ : FileReview) ∈
        ((filterMDXFiles [fileA]).take cfgOpenai.maxFiles).map
          (loopEntry cfgOpenai genTimeout (fun _ => contentA)) :=
  c1_llm_failure_fallback_run_submits cfgOpenai [] [fileA] okContent
    genTimeout (fun _ => contentA) fileA (.errMessage "timeout".toList)
    (by decide) (by decide) (fun f _ => rfl) (by decide) rfl

/-!
Claim C2. The source makes a single `generateObject` call per file with no
retry loop, no backoff and no transience classification: the result depends
only on attempt 0, and any error of that attempt immediately yields the
fallback review.
-/

/-- C2 counterexample: with an oracle that fails attempt 0 with a timeout (a
transient condition) and would succeed on attempt 1, the client returns the
fallback instead of the retried success, so there is no second attempt. -/
theorem c2_no_retry_counterexample :
    reviewFileWithLLM cfgOpenai "docs/a.mdx".toList contentA genTimeout =
      .ok ⟨3, "Automated review failed: timeout".toList, []⟩ ∧
    genTimeout (buildPrompt "docs/a.mdx".toList contentA
      cfgOpenai.promptTemplate) 1 = .ok ⟨5, "good".toList, []⟩ ∧
    (⟨3, "Automated review failed: timeout".toList, []⟩ : ReviewResult) ≠
      ⟨5, "good".toList, []⟩ := by
  decide

/-- C2 amended: the client makes exactly one attempt per file - the result
depends only on attempt 0 of the oracle - and any error of that single
attempt (transient or not) immediately produces the fallback review. -/
theorem c2_single_attempt_immediate_fallback
    (config : ActionConfig) (filePath content : Str) (g g2 : GenOracle)
    (hprov : providerOk config = true)
    (h0 : g (buildPrompt filePath content config.promptTemplate) 0 =
      g2 (buildPrompt filePath content config.promptTemplate) 0) :
    reviewFileWithLLM config filePath content g =
      reviewFileWithLLM config filePath content g2 ∧
    (∀ e, g (buildPrompt filePath content config.promptTemplate) 0 = .error e →
      reviewFileWithLLM config filePath content g = .ok (fallbackReview e)) := by
  constructor
  · rw [reviewFileWithLLM_of_providerOk hprov, reviewFileWithLLM_of_providerOk hprov]
    unfold genResult
    rw [h0]
  · intro e he
    rw [reviewFileWithLLM_of_providerOk hprov]
    unfold genResult
    rw [he]

/-- C2 witness: the single-attempt theorem applied to concrete oracles that
agree on attempt 0 and to a concrete failing attempt. -/
theorem c2_single_attempt_immediate_fallback_witness :
    reviewFileWithLLM cfgOpenai "docs/a.mdx".toList contentA genTimeout =
      reviewFileWithLLM cfgOpenai "docs/a.mdx".toList contentA
        (fun _ n => if n = 0 then .error (.errMessage "timeout".toList)
          else .ok ⟨1, [], []⟩) ∧
    reviewFileWithLLM cfgOpenai "docs/a.mdx".toList contentA genTimeout =
      .ok (fallbackReview (.errMessage "timeout".toList)) :=
  ⟨(c2_single_attempt_immediate_fallback cfgOpenai "docs/a.mdx".toList contentA
      genTimeout _ (by decide) rfl).1,
   (c2_single_attempt_immediate_fallback cfgOpenai "docs/a.mdx".toList contentA
      genTimeout genTimeout (by decide) rfl).2 _ rfl⟩

/-!
Claim C3. `postReview` maps every flattened suggestion unconditionally to a
review comment addressed at its `line_end`; there is no validation of the
line range against the file content, no dropped suggestion and no
omitted-suggestions counter anywhere in the source.
-/

theorem totalSuggestions_go (reviews : List FileReview) :
    ∀ acc : Nat, reviews.foldl (fun a r => a + r.result.suggestions.length) acc =
      acc + (reviews.map (fun r => r.result.suggestions.length)).sum := by
  induction reviews with
  | nil => intro acc; simp
  | cons r rest ih =>
    intro acc
    simp only [List.foldl_cons, List.map_cons, List.sum_cons, ih]
    omega

theorem totalSuggestions_eq_sum (reviews : List FileReview) :
    totalSuggestions reviews =
      (reviews.map (fun r => r.result.suggestions.length)).sum := by
  unfold totalSuggestions
  simpa using totalSuggestions_go reviews 0

theorem allSuggestionsOf_length (reviews : List FileReview) :
    (allSuggestionsOf reviews).length =
      (reviews.map (fun r => r.result.suggestions.length)).sum := by
  unfold allSuggestionsOf
  induction reviews with
  | nil => simp
  | cons r rest ih => simp [List.flatMap_cons, ih]

/-- C3 counterexample: a review whose single suggestion ends at line 100 of a
one-line file still produces exactly one submitted comment, addressed at line
100; the out-of-range suggestion is not dropped and nothing is counted. -/
theorem c3_out_of_range_not_dropped_counterexample :
    lineCount ("x".toList) = 1 ∧
    (commentsOf [⟨"docs/a.mdx".toList, "x".toList,
      ⟨4, "ok".toList, [⟨"docs/a.mdx".toList, 1, 100, "r".toList,
        "new".toList⟩]⟩⟩]).length = 1 ∧
    (commentsOf [⟨"docs/a.mdx".toList, "x".toList,
      ⟨4, "ok".toList, [⟨"docs/a.mdx".toList, 1, 100, "r".toList,
        "new".toList⟩]⟩⟩]).map (fun c => c.line) = [100] := by
  decide

/-- C3 amended: the comment mapper submits one comment per suggestion with no
range validation: the number of submitted comments always equals the total
suggestion count, and every suggestion's comment (valid range or not) is
among the submitted comments. -/
theorem c3_mapper_maps_every_suggestion :
    (∀ reviews : List FileReview,
      (commentsOf reviews).length = totalSuggestions reviews) ∧
    (∀ reviews : List FileReview, ∀ s ∈ allSuggestionsOf reviews,
      toReviewComment s ∈ commentsOf reviews) := by
  constructor
  · intro reviews
    unfold commentsOf
    rw [List.length_map, allSuggestionsOf_length, totalSuggestions_eq_sum]
  · intro reviews s hs
    exact List.mem_map_of_mem _ hs

/-- C3 witness: the amended theorem applied to the concrete out-of-range
review. -/
theorem c3_mapper_maps_every_suggestion_witness :
    toReviewComment ⟨"docs/a.mdx".toList, 1, 100, "r".toList, "new".toList⟩ ∈
      commentsOf [⟨"docs/a.mdx".toList, "x".toList,
        ⟨4, "ok".toList, [⟨"docs/a.mdx".toList, 1, 100, "r".toList,
          "new".toList⟩]⟩⟩] :=
  c3_mapper_maps_every_suggestion.2 _ _ (by decide)

/-!
Claim C5. `estimateTokens` is the ceiling of length over four, but no
`bound` operation exists anywhere in the source: the pipeline passes the
full sanitized content of every file to the model, has no token-ceiling
configuration, and tracks no truncated flag.
-/

unseal redactKeys redactGhp redactBearer in
/-- C5 counterexample: a run over a file whose sanitized content has token
estimate 14 submits that content to the LLM and into the review whole -
no prefix is taken, no truncation marker is appended and no truncated flag
exists - contradicting the claimed bounding for any ceiling below 14. -/
theorem c5_no_truncation_counterexample :
    submittedContents (runModel cfgOpenai [] [fileA] okContent genOk) =
      [contentA] ∧
    estimateTokens contentA = 14 := by
  decide

/-- C5 amended: `estimateTokens` returns exactly the ceiling of a quarter of
the text length, and (with a recognized provider) every retrieved file's
review carries the full sanitized content, unchanged, whatever its
estimate - the pipeline never truncates. -/
theorem c5_estimate_is_ceiling_and_content_untruncated :
    (∀ s : Str, s.length ≤ 4 * estimateTokens s ∧
      4 * estimateTokens s < s.length + 4) ∧
    (∀ (config : ActionConfig) (getContent : ContentOracle) (gen : GenOracle)
      (cf : ChangedFile → Str) (fs : List ChangedFile),
      providerOk config = true →
      (∀ f ∈ fs, getContent f.filename = .ok (cf f)) →
      (processFiles config getContent gen fs).reviews.map
        (fun fr => fr.content) = fs.map (fun f => sanitizeContent (cf f))) := by
  constructor
  · intro s
    unfold estimateTokens
    omega
  · intro config getContent gen cf fs hprov hc
    rw [@processFiles_reviews_of_ok config getContent gen cf hprov fs hc]
    rw [List.map_map]
    rfl

/-- C5 witness: the untruncated-content statement applied to the concrete
one-file run. -/
theorem c5_estimate_is_ceiling_and_content_untruncated_witness :
    (processFiles cfgOpenai okContent genOk [fileA]).reviews.map
      (fun fr => fr.content) = [fileA].map (fun _ => sanitizeContent contentA) :=
  c5_estimate_is_ceiling_and_content_untruncated.2 cfgOpenai okContent genOk
    (fun _ => contentA) [fileA] (by decide) (fun _ _ => rfl)

/-!
Claim C6. The aggregate rating is `Math.round` of the arithmetic mean,
which for the nonnegative ratings at hand is round-half-up, and the
suggestion total is the sum of the per-file counts.
-/

theorem jsRound_eq_intFloor (q : ℚ) : jsRound q = ⌊q + 1 / 2⌋ := by
  unfold jsRound
  rw [Rat.floor_def', Rat.floor_def]

/-- C6: the overall rating is within a half of the mean, with excess of
exactly a half resolved upward (the floor bounds below characterize
round-half-up); the three example rating lists aggregate to 5, 4 and 3; and
the reported suggestion total is the sum of per-file suggestion counts and
equals the number of comments flattened for submission. -/
theorem c6_aggregate_round_half_up :
    (∀ reviews : List FileReview, reviews ≠ [] →
      ((overallRating reviews : ℚ) ≤
        (sumRatings reviews : ℚ) / (reviews.length : ℚ) + 1 / 2 ∧
      (sumRatings reviews : ℚ) / (reviews.length : ℚ) - 1 / 2 <
        (overallRating reviews : ℚ))) ∧
    overallRating [⟨[], [], ⟨4, [], []⟩⟩, ⟨[], [], ⟨5, [], []⟩⟩] = 5 ∧
    overallRating [⟨[], [], ⟨4, [], []⟩⟩, ⟨[], [], ⟨4, [], []⟩⟩,
      ⟨[], [], ⟨3, [], []⟩⟩] = 4 ∧
    overallRating [⟨[], [], ⟨3, [], []⟩⟩, ⟨[], [], ⟨2, [], []⟩⟩] = 3 ∧
    (∀ reviews : List FileReview,
      totalSuggestions reviews =
        (reviews.map (fun r => r.result.suggestions.length)).sum ∧
      totalSuggestions reviews = (allSuggestionsOf reviews).length) := by
  refine ⟨?_, by norm_num [overallRating, jsRound_eq_intFloor, sumRatings],
    by norm_num [overallRating, jsRound_eq_intFloor, sumRatings],
    by norm_num [overallRating, jsRound_eq_intFloor, sumRatings], ?_⟩
  · intro reviews _
    unfold overallRating
    rw [jsRound_eq_intFloor]
    constructor
    · exact_mod_cast Int.floor_le
        ((sumRatings reviews : ℚ) / (reviews.length : ℚ) + 1 / 2)
    · have h := Int.lt_floor_add_one
        ((sumRatings reviews : ℚ) / (reviews.length : ℚ) + 1 / 2)
      push_cast at h ⊢
      linarith
  · intro reviews
    exact ⟨totalSuggestions_eq_sum reviews,
      by rw [totalSuggestions_eq_sum, allSuggestionsOf_length]⟩

/-- C6 witness: the rounding bounds applied to the concrete two-file list
with ratings 4 and 5. -/
theorem c6_aggregate_round_half_up_witness :
    ((overallRating [⟨[], [], ⟨4, [], []⟩⟩, ⟨[], [], ⟨5, [], []⟩⟩] : ℚ) ≤
      (sumRatings [⟨[], [], ⟨4, [], []⟩⟩, ⟨[], [], ⟨5, [], []⟩⟩] : ℚ) /
        (([⟨[], [], ⟨4, [], []⟩⟩, ⟨[], [], ⟨5, [], []⟩⟩] :
          List FileReview).length : ℚ) + 1 / 2 ∧
    (sumRatings [⟨[], [], ⟨4, [], []⟩⟩, ⟨[], [], ⟨5, [], []⟩⟩] : ℚ) /
        (([⟨[], [], ⟨4, [], []⟩⟩, ⟨[], [], ⟨5, [], []⟩⟩] :
          List FileReview).length : ℚ) - 1 / 2 <
      (overallRating [⟨[], [], ⟨4, [], []⟩⟩, ⟨[], [], ⟨5, [], []⟩⟩] : ℚ)) :=
  c6_aggregate_round_half_up.1 _ (by decide)

/-!
Claim C7. `getConfig` does not validate the provider name; `getLLMProvider`
is only called inside `reviewFileWithLLM`, after the changed-file listing and
after each file's content has been fetched, and its error is caught by the
per-file loop, which skips the file with a warning. An unknown provider
therefore fails the run only after every file has been fetched and skipped,
with the terminal `No files could be reviewed` failure.
-/

unseal redactKeys redactGhp redactBearer in
/-- C7 counterexample: with the unrecognized provider mistral and one MDX
file, the run retrieves that file's content (the fetched list is nonempty)
before failing, contradicting fail-fast-before-any-file-is-processed. -/
theorem c7_unknown_provider_fetches_content_counterexample :
    (runModel cfgMistral [] [fileA] okContent genOk).fetched =
      ["docs/a.mdx".toList] ∧
    (runModel cfgMistral [] [fileA] okContent genOk).skipped =
      ["docs/a.mdx".toList] ∧
    (runModel cfgMistral [] [fileA] okContent genOk).outcome =
      .failedNoReviews := by
  decide

/-- C7 amended: an unrecognized provider name is not detected before file
processing: every selected file's content is retrieved and the file is then
skipped with a warning when provider selection throws inside its review, and
only after all files are skipped does the run fail with the
no-files-could-be-reviewed error. -/
theorem c7_unknown_provider_fails_late
    (config : ActionConfig) (labels : List Str) (files : List ChangedFile)
    (getContent : ContentOracle) (gen : GenOracle) (cf : ChangedFile → Str)
    (hprov : providerOk config = false)
    (hskip : shouldSkipPR labels = false)
    (hne : filterMDXFiles files ≠ [])
    (hc : ∀ f ∈ (filterMDXFiles files).take config.maxFiles,
      getContent f.filename = .ok (cf f)) :
    (runModel config labels files getContent gen).outcome = .failedNoReviews ∧
    (runModel config labels files getContent gen).fetched =
      ((filterMDXFiles files).take config.maxFiles).map
        (fun f => f.filename) ∧
    (runModel config labels files getContent gen).skipped =
      ((filterMDXFiles files).take config.maxFiles).map
        (fun f => f.filename) := by
  have hlr := @processFiles_of_bad_provider config getContent gen cf hprov
    ((filterMDXFiles files).take config.maxFiles) hc
  have hemp : (filterMDXFiles files).isEmpty = false := by
    simp [List.isEmpty_iff, hne]
  unfold runModel
  rw [hskip]
  simp only [Bool.false_eq_true, if_false]
  rw [hemp]
  simp only [Bool.false_eq_true, if_false]
  rw [hlr]
  simp

/-- C7 witness: the late-failure theorem applied to the concrete
mistral-provider run. -/
theorem c7_unknown_provider_fails_late_witness :
    (runModel cfgMistral [] [fileA] okContent genOk).outcome =
      .failedNoReviews ∧
    (runModel cfgMistral [] [fileA] okContent genOk).fetched =
      ((filterMDXFiles [fileA]).take cfgMistral.maxFiles).map
        (fun f => f.filename) ∧
    (runModel cfgMistral [] [fileA] okContent genOk).skipped =
      ((filterMDXFiles [fileA]).take cfgMistral.maxFiles).map
        (fun f => f.filename) :=
  c7_unknown_provider_fails_late cfgMistral [] [fileA] okContent genOk
    (fun _ => contentA) (by decide) (by decide) (by decide) (fun _ _ => rfl)

/-!
Claim C9. Files beyond `maxFiles` are excluded by the slice, and the breach
is reported through `core.warning` (a workflow log line), not inside the
review body: `buildReviewBody` receives only the reviewed files and the
submitted payload is identical to that of a run whose file list had already
been truncated, so the body says nothing about the omitted files.
-/

theorem filter_take_filter (files : List ChangedFile) (n : Nat) :
    filterMDXFiles ((filterMDXFiles files).take n) =
      (filterMDXFiles files).take n := by
  unfold filterMDXFiles
  apply List.filter_eq_self.mpr
  intro a ha
  have ham : a ∈ List.filter (fun f => ".mdx".toList.isSuffixOf f.filename)
      files := List.take_subset n _ ha
  exact (List.mem_filter.mp ham).2

theorem runModel_outcome_congr (config : ActionConfig) (labels : List Str)
    (getContent : ContentOracle) (gen : GenOracle)
    (files1 files2 : List ChangedFile)
    (h : (filterMDXFiles files1).take config.maxFiles =
      (filterMDXFiles files2).take config.maxFiles)
    (he : (filterMDXFiles files1).isEmpty = (filterMDXFiles files2).isEmpty) :
    (runModel config labels files1 getContent gen).outcome =
      (runModel config labels files2 getContent gen).outcome := by
  unfold runModel
  by_cases hs : shouldSkipPR labels
  · rw [if_pos hs, if_pos hs]
  · rw [if_neg hs, if_neg hs]
    by_cases hemp : (filterMDXFiles files1).isEmpty
    · have hemp2 : (filterMDXFiles files2).isEmpty = true := by
        rw [← he]; exact hemp
      simp only [hemp, hemp2, if_true]
    · have hemp2 : (filterMDXFiles files2).isEmpty = false := by
        rw [← he]; simpa using hemp
      simp only [hemp2, Bool.false_eq_true, if_false, h,
        Bool.not_eq_true] at *
      simp only [hemp, Bool.false_eq_true, if_false, h]
      by_cases hrev : (processFiles config getContent gen
          ((filterMDXFiles files2).take config.maxFiles)).reviews.isEmpty
      · simp only [hrev, if_true]
      · simp only [hrev, Bool.false_eq_true, if_false]

unseal redactKeys redactGhp redactBearer in
/-- C9 counterexample: with `maxFiles` 1 and two MDX files, the run posts a
body identical to that of a run that never saw the second file, while only
the former logs the cap warning: the posted review silently omits the second
file and the breach is not recorded in the body. -/
theorem c9_cap_breach_absent_from_body_counterexample :
    postedBody (runModel cfgCapOne [] [fileA, fileB] okContent genOk) =
      postedBody (runModel cfgCapOne [] [fileA] okContent genOk) ∧
    postedBody (runModel cfgCapOne [] [fileA, fileB] okContent genOk) ≠
      none ∧
    (runModel cfgCapOne [] [fileA, fileB] okContent genOk).capWarned = true ∧
    (runModel cfgCapOne [] [fileA] okContent genOk).capWarned = false := by
  have hcongr := runModel_outcome_congr cfgCapOne [] okContent genOk
    [fileA, fileB] [fileA] (by decide) (by decide)
  have heq : postedBody (runModel cfgCapOne [] [fileA, fileB] okContent genOk) =
      postedBody (runModel cfgCapOne [] [fileA] okContent genOk) := by
    unfold postedBody
    rw [hcongr]
  have hsome : (postedBody (runModel cfgCapOne [] [fileA] okContent
      genOk)).isSome = true := by decide
  refine ⟨heq, ?_, by decide, by decide⟩
  rw [heq]
  intro hnone
  rw [hnone] at hsome
  cases hsome

/-- C9 amended: when the MDX file count exceeds `maxFiles` (positive), the
excess files are excluded, the breach sets only the `core.warning` flag, and
the run outcome - including the posted body and comments - is exactly that
of the run over the truncated file list, so the review body carries no
record of the omission. -/
theorem c9_cap_warning_only_in_log
    (config : ActionConfig) (labels : List Str) (files : List ChangedFile)
    (getContent : ContentOracle) (gen : GenOracle)
    (hskip : shouldSkipPR labels = false)
    (hmax : 0 < config.maxFiles)
    (hcap : config.maxFiles < (filterMDXFiles files).length) :
    (runModel config labels files getContent gen).capWarned = true ∧
    (runModel config labels files getContent gen).outcome =
      (runModel config labels ((filterMDXFiles files).take config.maxFiles)
        getContent gen).outcome := by
  have hne : filterMDXFiles files ≠ [] := by
    intro h
    rw [h] at hcap
    simp at hcap
  have hemp : (filterMDXFiles files).isEmpty = false := by
    simp [List.isEmpty_iff, hne]
  have htake_len : ((filterMDXFiles files).take config.maxFiles).length =
      config.maxFiles := by
    rw [List.length_take]
    omega
  have htake_ne : (filterMDXFiles files).take config.maxFiles ≠ [] := by
    intro h
    rw [h] at htake_len
    simp at htake_len
    omega
  have hemp2 : (filterMDXFiles ((filterMDXFiles files).take
      config.maxFiles)).isEmpty = false := by
    rw [filter_take_filter]
    simp [List.isEmpty_iff, htake_ne]
  constructor
  · unfold runModel
    rw [hskip]
    simp only [Bool.false_eq_true, if_false]
    rw [hemp]
    simp only [Bool.false_eq_true, if_false]
    split <;> simp [hcap]
  · unfold runModel
    rw [hskip]
    simp only [Bool.false_eq_true, if_false]
    rw [hemp, hemp2]
    simp only [Bool.false_eq_true, if_false]
    rw [filter_take_filter]
    rw [List.take_take, Nat.min_self]
    by_cases hrev : (processFiles config getContent gen
        ((filterMDXFiles files).take config.maxFiles)).reviews.isEmpty = true
    · simp only [hrev, if_true]
    · simp only [Bool.not_eq_true] at hrev
      simp only [hrev, Bool.false_eq_true, if_false]

/-- C9 witness: the amended theorem applied to the concrete capped run with
two MDX files. -/
theorem c9_cap_warning_only_in_log_witness :
    (runModel cfgCapOne [] [fileA, fileB] okContent genOk).capWarned = true ∧
    (runModel cfgCapOne [] [fileA, fileB] okContent genOk).outcome =
      (runModel cfgCapOne [] ((filterMDXFiles [fileA, fileB]).take
        cfgCapOne.maxFiles) okContent genOk).outcome :=
  c9_cap_warning_only_in_log cfgCapOne [] [fileA, fileB] okContent genOk
    (by decide) (by decide) (by decide)

/-!
Claim C8. The comment built for a suggestion carries only a single `line`
field set to `line_end` - `line_start` is ignored and no start-line field
exists - so the comment is not addressed at the full line range and the
embedded suggestion applies to line `line_end` only. The body does embed the
reason followed by the replacement text inside a literal suggestion fence,
one line per replacement line, in order.
-/

/-- C8 counterexample: two suggestions with the same `line_end` but different
`line_start` (range 1-2 versus range 2-2) map to identical submitted
comments, so the comment cannot be addressed at the suggestion's full line
range; it carries only `line_end`. -/
theorem c8_range_ignored_counterexample :
    toReviewComment ⟨"docs/a.mdx".toList, 1, 2, "r".toList, "new".toList⟩ =
      toReviewComment ⟨"docs/a.mdx".toList, 2, 2, "r".toList, "new".toList⟩ ∧
    (toReviewComment ⟨"docs/a.mdx".toList, 1, 2, "r".toList,
      "new".toList⟩).line = 2 := by
  decide

/-- C8 amended: the comment for a suggestion is addressed at the single line
`line_end` (the range start is ignored), and its body is the reason line in
bold, a blank line, then a literal suggestion fence holding exactly the lines
of the replacement text in order. -/
theorem c8_comment_line_end_and_fence (s : Suggestion)
    (h : ∀ c ∈ s.reason, c ≠ '\n') :
    (toReviewComment s).path = s.file ∧
    (toReviewComment s).line = s.line_end ∧
    splitOnNl (toReviewComment s).body =
      ("**".toList ++ s.reason ++ "**".toList) :: ([] : Str) ::
        "```suggestion".toList ::
          (splitOnNl s.suggestion ++ ["```".toList]) := by
  refine ⟨rfl, rfl, ?_⟩
  have hbody : (toReviewComment s).body =
      ("**".toList ++ s.reason ++ "**".toList) ++ '\n' ::
        (([] : Str) ++ '\n' :: ("```suggestion".toList ++ '\n' ::
          (s.suggestion ++ '\n' :: "```".toList))) := by
    show buildSuggestionComment s = _
    unfold buildSuggestionComment
    have hlit : "**\n\n```suggestion\n".toList =
        "**".toList ++ '\n' :: (([] : Str) ++ '\n' ::
          ("```suggestion".toList ++ ['\n'])) := by decide
    have hlit2 : "\n```".toList = '\n' :: "```".toList := by decide
    rw [hlit, hlit2]
    simp [List.append_assoc]
  rw [hbody, splitOnNl_append_nl, splitOnNl_append_nl, splitOnNl_append_nl,
    splitOnNl_append_nl]
  have hA : splitOnNl ("**".toList ++ s.reason ++ "**".toList) =
      ["**".toList ++ s.reason ++ "**".toList] := by
    apply splitOnNl_of_no_nl
    intro c hc
    rcases List.mem_append.mp hc with hc | hc
    · rcases List.mem_append.mp hc with hc | hc
      · intro he; subst he; simp at hc
      · exact h c hc
    · intro he; subst he; simp at hc
  rw [hA]
  have hF : splitOnNl "```suggestion".toList = ["```suggestion".toList] := by
    decide
  have hC : splitOnNl "```".toList = ["```".toList] := by decide
  have hE : splitOnNl ([] : Str) = [([] : Str)] := by decide
  rw [hF, hC, hE]
  simp

/-- C8 witness: the amended theorem applied to a concrete two-line
replacement, whose fence holds exactly those two lines in order. -/
theorem c8_comment_line_end_and_fence_witness :
    (toReviewComment ⟨"docs/a.mdx".toList, 1, 2, "r".toList,
      "one\ntwo".toList⟩).path = "docs/a.mdx".toList ∧
    (toReviewComment ⟨"docs/a.mdx".toList, 1, 2, "r".toList,
      "one\ntwo".toList⟩).line = 2 ∧
    splitOnNl (toReviewComment ⟨"docs/a.mdx".toList, 1, 2, "r".toList,
      "one\ntwo".toList⟩).body =
      ("**".toList ++ "r".toList ++ "**".toList) :: ([] : Str) ::
        "```suggestion".toList ::
          (splitOnNl "one\ntwo".toList ++ ["```".toList]) :=
  c8_comment_line_end_and_fence
    ⟨"docs/a.mdx".toList, 1, 2, "r".toList, "one\ntwo".toList⟩ (by decide)

/-!
Claim C10. `buildPrompt` substitutes a truthy custom template with two
chained `String.prototype.replace` calls with string patterns, each of which
replaces only the first occurrence; later occurrences of either placeholder
survive verbatim.
-/

theorem replaceFirst_at_first_occurrence (pat rep : Str) :
    ∀ a b : Str, pat ≠ [] →
      (∀ i, i < a.length → ¬ pat.isPrefixOf ((a ++ pat ++ b).drop i)) →
      replaceFirst pat rep (a ++ pat ++ b) = a ++ rep ++ b := by
  intro a
  induction a with
  | nil =>
    intro b hpat _
    have hpre : pat.isPrefixOf (pat ++ b) = true := by
      rw [List.isPrefixOf_iff_prefix]
      exact List.prefix_append pat b
    simp only [List.nil_append]
    cases hq : pat ++ b with
    | nil =>
      cases hp : pat with
      | nil => exact absurd hp hpat
      | cons p pt =>
        rw [hp] at hq
        cases hq
    | cons q qt =>
      simp only [replaceFirst]
      rw [if_pos (by rw [← hq]; exact hpre)]
      rw [← hq, List.drop_left]
  | cons c a2 ih =>
    intro b hpat hocc
    have h0 : ¬ pat.isPrefixOf ((c :: a2) ++ pat ++ b) := by
      have := hocc 0 (by simp)
      simpa using this
    simp only [List.cons_append]
    unfold replaceFirst
    rw [if_neg (by simpa using h0)]
    have ih2 := ih b hpat (fun i hi => by
      have := hocc (i + 1) (by simp; omega)
      simpa using this)
    rw [ih2]

/-- C10: a custom template written as template-head, first file-path
placeholder, template-tail has only that first placeholder replaced by the
path; and when the once-substituted text decomposes as head, first
file-content placeholder, tail, only that occurrence is replaced by the
content: the prompt sent to the model is the tail-preserving result, so any
later occurrences of either placeholder (inside the tails) stay verbatim. -/
theorem c10_template_first_occurrence_only
    (A B C D path content : Str)
    (hA : ∀ i, i < A.length → ¬ filePathPlaceholder.isPrefixOf
      ((A ++ filePathPlaceholder ++ B).drop i))
    (hsplit : A ++ path ++ B = C ++ fileContentPlaceholder ++ D)
    (hC : ∀ i, i < C.length → ¬ fileContentPlaceholder.isPrefixOf
      ((C ++ fileContentPlaceholder ++ D).drop i)) :
    buildPrompt path content (A ++ filePathPlaceholder ++ B) =
      C ++ content ++ D := by
  have htpl : A ++ filePathPlaceholder ++ B ≠ [] := by
    intro hx
    have := congrArg List.length hx
    simp [filePathPlaceholder] at this
  unfold buildPrompt
  rw [if_neg htpl]
  rw [replaceFirst_at_first_occurrence filePathPlaceholder path A B
    (by decide) hA]
  rw [hsplit]
  exact replaceFirst_at_first_occurrence fileContentPlaceholder content C D
    (by decide) hC

/-- C10 witness: a template with each placeholder twice has only the first
occurrence of each substituted; the second occurrences survive verbatim in
the produced prompt. -/
theorem c10_template_first_occurrence_only_witness :
    buildPrompt "p".toList "c".toList
      (filePathPlaceholder ++ filePathPlaceholder ++
        fileContentPlaceholder ++ fileContentPlaceholder) =
      ("p".toList ++ filePathPlaceholder) ++ "c".toList ++
        fileContentPlaceholder :=
  c10_template_first_occurrence_only []
    (filePathPlaceholder ++ fileContentPlaceholder ++ fileContentPlaceholder)
    ("p".toList ++ filePathPlaceholder) fileContentPlaceholder
    "p".toList "c".toList
    (fun i hi => by simp at hi)
    (by decide)
    (by decide)
